import Mathlib

/-!
Verification of the additive secret-sharing library (`additive.py`).

The development shallowly embeds the `share` class and the `shares`
generator.  Python machine integers are modelled as `Nat`/`Int` with
explicit `% 2 ^ exponent` reductions; fallible operations return
`Except String`; the cryptographically secure random-byte collaborator
(`secrets.token_bytes`) is modelled as an explicit byte stream
`stream : Nat → Nat`, consumed sequentially.
-/

/-- A secret share: `value` is the internal unsigned representation,
`exponent` the bit width of the modulus, `signed` the signedness flag.
These are the three attributes stored by `share.__init__`. -/
structure share where
  value : Nat
  exponent : Nat
  signed : Bool
deriving DecidableEq

deriving instance DecidableEq for Except

/-- Embedding of `share._value_from_parameters`: validates the exponent and
the range of the logical value, and returns the internal (offset-adjusted)
representation.  The Python function returns a Python `int` that is
nonnegative whenever the range check passes; `Int.toNat` realises that. -/
def share._value_from_parameters (value : Int) (exponent : Nat) (signed : Bool) :
    Except String Nat :=
  if ¬(1 ≤ exponent ∧ exponent ≤ 128 ∧ exponent % 8 = 0) then
    .error "exponent must be a positive multiple of 8 that is at most 128"
  else
    let minimum : Int := if signed then -(2 ^ (exponent - 1) : Int) else 0
    let maximum : Int := 2 ^ (if signed then exponent - 1 else exponent)
    if ¬(minimum ≤ value ∧ value < maximum) then
      .error "value is not in range that can be represented using supplied parameters"
    else
      .ok (value + (if signed then maximum else 0)).toNat

/-- Embedding of `share.__init__`: the validating constructor. -/
def share.init (value : Int) (exponent : Nat) (signed : Bool) : Except String share :=
  (share._value_from_parameters value exponent signed).map fun v =>
    { value := v, exponent := exponent, signed := signed }

/-- Embedding of `share._from_parameters`: constructs a `share` object
without conducting any checks. -/
def share._from_parameters (value : Nat) (exponent : Nat) (signed : Bool) : share :=
  { value := value, exponent := exponent, signed := signed }

/-- Embedding of `int.from_bytes(bs, 'little')` on a list of byte values. -/
def fromLittleEndianBytes : List Nat → Nat
  | [] => 0
  | b :: rest => b + 256 * fromLittleEndianBytes rest

/-- Embedding of `n.to_bytes(k, 'little')`.  Python raises `OverflowError`
when `n ≥ 256 ^ k`; every call in the source is made with
`n < 2 ^ exponent = 256 ^ (exponent / 8)`, where the two functions agree. -/
def natToLittleEndianBytes (n : Nat) : Nat → List Nat
  | 0 => []
  | k + 1 => n % 256 :: natToLittleEndianBytes (n / 256) k

/-- Embedding of `share.__add__` on two `share` operands.  The integer-`0`
branch of `__add__`/`__radd__` exists only to serve as the base case of
Python's `sum` and is modelled inside `sumShares`. -/
def share.add (self other : share) : Except String share :=
  if self.exponent = other.exponent ∧ self.signed = other.signed then
    .ok (share._from_parameters
      ((self.value + other.value +
          (if self.signed then 2 ^ (self.exponent - 1) else 0)) % 2 ^ self.exponent)
      self.exponent self.signed)
  else
    .error "shares must have compatible parameters to be added"

/-- Embedding of `share.__mul__` (and the commutative `__rmul__`): scalar
multiplication by an integer.  The `TypeError` branch for non-integer
scalars is unrepresentable here because `scalar : Int` by type. -/
def share.mul (self : share) (scalar : Int) : Except String share :=
  if ¬self.signed ∧ scalar < 0 then
    .error "shares of unsigned integers cannot be multiplied by a negative scalar"
  else
    let offset : Int := if self.signed then (|scalar| - 1) * 2 ^ (self.exponent - 1) else 0
    .ok (share._from_parameters
      (((self.value : Int) * scalar + offset) % (2 ^ self.exponent : Int)).toNat
      self.exponent self.signed)

/-- Embedding of `share.to_int`. -/
def share.to_int (self : share) : Int :=
  if self.signed then (self.value : Int) - 2 ^ (self.exponent - 1) else self.value

/-- Embedding of `share.to_bytes`: one header byte followed by the
little-endian encoding of the internal value in `exponent / 8` bytes. -/
def share.to_bytes (self : share) : List Nat :=
  (((self.exponent - 1) <<< 1) + (if self.signed then 1 else 0)) ::
    natToLittleEndianBytes self.value (self.exponent / 8)

/-- Embedding of `share.from_bytes`.  Python raises `IndexError` on an
empty input (`bs[0]`); afterwards the exponent recovered from the header
is validated and the remaining bytes are decoded little-endian. -/
def share.from_bytes (bs : List Nat) : Except String share :=
  match bs with
  | [] => .error "index out of range"
  | b0 :: rest =>
    let exponent := (b0 >>> 1) + 1
    if exponent = 0 ∨ exponent % 8 ≠ 0 then
      .error "invalid exponent in binary encoding of share"
    else
      .ok (share._from_parameters (fromLittleEndianBytes rest) exponent (b0 % 2 == 1))

/-- The standard Base64 alphabet used by `base64.standard_b64encode`. -/
def b64Alphabet : List Char :=
  "ABCDEFGHIJKLMNOPQRSTUVWXYZabcdefghijklmnopqrstuvwxyz0123456789+/".toList

/-- Character for a sextet value (`0 ≤ n < 64`). -/
def b64EncodeChar (n : Nat) : Char := b64Alphabet.getD n '='

/-- Sextet value of a Base64 alphabet character. -/
def b64DecodeChar (c : Char) : Except String Nat :=
  match b64Alphabet.findIdx? (fun x => x == c) with
  | some i => .ok i
  | none => .error "invalid character in Base64 encoding"

/-- Embedding of `base64.standard_b64encode` on a list of byte values:
three bytes become four sextet characters, with `=` padding for a final
group of one or two bytes. -/
def b64EncodeBytes : List Nat → List Char
  | a :: b :: c :: rest =>
    b64EncodeChar (a / 4) :: b64EncodeChar (a % 4 * 16 + b / 16) ::
      b64EncodeChar (b % 16 * 4 + c / 64) :: b64EncodeChar (c % 64) ::
      b64EncodeBytes rest
  | [a, b] =>
    [b64EncodeChar (a / 4), b64EncodeChar (a % 4 * 16 + b / 16),
      b64EncodeChar (b % 16 * 4), '=']
  | [a] =>
    [b64EncodeChar (a / 4), b64EncodeChar (a % 4 * 16), '=', '=']
  | [] => []

/-- Embedding of `base64.standard_b64decode` on well-formed padded input
(four-character groups, padding only in the final group). -/
def b64DecodeBytes : List Char → Except String (List Nat)
  | [] => .ok []
  | c0 :: c1 :: c2 :: c3 :: rest =>
    if c2 = '=' ∧ c3 = '=' ∧ rest = [] then do
      let s0 ← b64DecodeChar c0
      let s1 ← b64DecodeChar c1
      .ok [s0 * 4 + s1 / 16]
    else if c3 = '=' ∧ rest = [] then do
      let s0 ← b64DecodeChar c0
      let s1 ← b64DecodeChar c1
      let s2 ← b64DecodeChar c2
      .ok [s0 * 4 + s1 / 16, s1 % 16 * 16 + s2 / 4]
    else do
      let s0 ← b64DecodeChar c0
      let s1 ← b64DecodeChar c1
      let s2 ← b64DecodeChar c2
      let s3 ← b64DecodeChar c3
      let bs ← b64DecodeBytes rest
      .ok ([s0 * 4 + s1 / 16, s1 % 16 * 16 + s2 / 4, s2 % 4 * 64 + s3] ++ bs)
  | _ => .error "invalid Base64 length"

/-- Embedding of `share.to_base64` (the resulting string as a character list). -/
def share.to_base64 (self : share) : List Char := b64EncodeBytes self.to_bytes

/-- Embedding of `share.from_base64`. -/
def share.from_base64 (s : List Char) : Except String share := do
  share.from_bytes (← b64DecodeBytes s)

/-- Bytes `start, start+1, …, start+n-1` of the modelled random stream:
the result of one `secrets.token_bytes(n)` call at stream offset `start`. -/
def drawBytes (stream : Nat → Nat) (start n : Nat) : List Nat :=
  (List.range n).map fun i => stream (start + i)

/-- Internal value of the `i`-th randomly drawn share inside `shares`:
the loop body draws `exponent` bytes (`secrets.token_bytes(exponent)`),
interprets them little-endian, adds the offset, and reduces modulo
`2 ^ exponent`.  The `i`-th loop iteration consumes stream bytes
`[i * exponent, (i + 1) * exponent)`. -/
def randomValue (stream : Nat → Nat) (exponent offset i : Nat) : Nat :=
  (fromLittleEndianBytes (drawBytes stream (i * exponent) exponent) + offset) % 2 ^ exponent

/-- Embedding of the `shares` generator.  The loop accumulator `t` is the
`foldl`; the final share restores one offset term when `quantity` is even. -/
def shares (value : Int) (quantity exponent : Nat) (signed : Bool)
    (stream : Nat → Nat) : Except String (List share) := do
  let v ← share._value_from_parameters value exponent signed
  let offset := if signed then 2 ^ (exponent - 1) else 0
  let vs := (List.range (quantity - 1)).map (randomValue stream exponent offset)
  let t := vs.foldl (fun t v => (t + v) % 2 ^ exponent) 0
  let ss := vs.map fun v => share._from_parameters v exponent signed
  let last := share._from_parameters
    ((v + (2 ^ exponent - t) + (if quantity % 2 = 0 then offset else 0)) % 2 ^ exponent)
    exponent signed
  .ok (ss ++ [last])

/-- Python `sum` over a list of shares: the base case `0 + s = s` is the
integer branch of `__radd__`; every further step is `share.__add__`. -/
def sumShares : List share → Except String share
  | [] => .error "sum of an empty sequence of shares is the integer 0"
  | s :: rest => rest.foldlM share.add s

/-- The spec's description (claim C7) of the `i`-th random draw: the value
would be computed from exactly `exponent / 8` bytes of the stream,
interpreted little-endian, offset-adjusted, and reduced modulo
`2 ^ exponent`.  Stated only for comparison with the source-derived
`randomValue`. -/
def specRandomValue (stream : Nat → Nat) (exponent offset i : Nat) : Nat :=
  (fromLittleEndianBytes (drawBytes stream (i * (exponent / 8)) (exponent / 8)) + offset)
    % 2 ^ exponent

/-- Internal value of a share drawn from an explicit vector of `n` random
bytes (claim C9): the little-endian value of the bytes, offset-adjusted,
reduced modulo `2 ^ exponent`. -/
def randomValueOfBytes (n exponent offset : Nat) (v : Fin n → Fin 256) : Nat :=
  ((∑ i : Fin n, (v i : Nat) * 256 ^ (i : Nat)) + offset) % 2 ^ exponent

/-- The list of internal values produced by a successful `shares` call on
the offset-adjusted target value `v`: the `quantity - 1` random draws
followed by the balancing share computed by the generator. -/
def sharesValues (v quantity exponent : Nat) (signed : Bool) (stream : Nat → Nat) : List Nat :=
  (List.range (quantity - 1)).map
      (randomValue stream exponent (if signed then 2 ^ (exponent - 1) else 0)) ++
    [(v + (2 ^ exponent -
        ((List.range (quantity - 1)).map
            (randomValue stream exponent (if signed then 2 ^ (exponent - 1) else 0))).foldl
          (fun t v => (t + v) % 2 ^ exponent) 0) +
      (if quantity % 2 = 0 then (if signed then 2 ^ (exponent - 1) else 0) else 0)) % 2 ^ exponent]

/-! ## Helper lemmas -/

/-- The loop accumulator `t` of `shares` equals the running sum modulo `2 ^ exponent`. -/
theorem foldl_mod_eq_sum_mod (l : List Nat) (m : Nat) :
    ∀ a : Nat, a < m → l.foldl (fun t v => (t + v) % m) a = (a + l.sum) % m := by
  induction l with
  | nil =>
    intro a ha
    simp [Nat.mod_eq_of_lt ha]
  | cons x xs ih =>
    intro a ha
    have hm : 0 < m := Nat.pos_of_ne_zero (by omega)
    simp only [List.foldl_cons, List.sum_cons]
    rw [ih ((a + x) % m) (Nat.mod_lt _ hm), Nat.mod_add_mod]
    congr 1
    omega

/-- Folding `share.add` over shares with uniform parameters never fails and
accumulates one offset term per addition. -/
theorem foldlM_share_add (l : List share) :
    ∀ acc : share, (∀ s ∈ l, s.exponent = acc.exponent ∧ s.signed = acc.signed) →
      acc.value < 2 ^ acc.exponent →
      l.foldlM share.add acc = .ok
        { value := (acc.value + (l.map share.value).sum +
            l.length * (if acc.signed then 2 ^ (acc.exponent - 1) else 0)) % 2 ^ acc.exponent,
          exponent := acc.exponent, signed := acc.signed } := by
  induction l with
  | nil =>
    intro acc _ hv
    simp only [List.foldlM_nil, List.map_nil, List.sum_nil, List.length_nil, Nat.add_zero,
      Nat.zero_mul, Nat.mod_eq_of_lt hv]
    rfl
  | cons x xs ih =>
    intro acc hmem hv
    obtain ⟨hxe, hxs⟩ := hmem x (List.mem_cons_self x xs)
    have hpos : 0 < 2 ^ acc.exponent := Nat.pos_pow_of_pos _ (by omega)
    have hadd : share.add acc x = .ok (share._from_parameters
        ((acc.value + x.value + (if acc.signed then 2 ^ (acc.exponent - 1) else 0))
          % 2 ^ acc.exponent)
        acc.exponent acc.signed) := by
      rw [share.add, if_pos ⟨hxe.symm, hxs.symm⟩]
    have hrec := ih (share._from_parameters
        ((acc.value + x.value + (if acc.signed then 2 ^ (acc.exponent - 1) else 0))
          % 2 ^ acc.exponent) acc.exponent acc.signed)
      (fun s hs => hmem s (List.mem_cons_of_mem x hs))
      (Nat.mod_lt _ hpos)
    rw [List.foldlM_cons, hadd]
    show Except.bind _ _ = _
    rw [Except.bind]
    rw [hrec]
    simp only [share._from_parameters, List.map_cons, List.sum_cons, List.length_cons]
    have hassoc : ∀ X K C : Nat,
        X % 2 ^ acc.exponent + K + C = X % 2 ^ acc.exponent + (K + C) := fun _ _ _ => by ring
    rw [hassoc, Nat.mod_add_mod]
    congr 3
    ring

/-- Python `sum` over a nonempty list of shares with uniform parameters:
the result carries the sum of the internal values plus one offset term per
addition performed (`length - 1` of them), reduced modulo `2 ^ exponent`. -/
theorem sumShares_eq (l : List share) (e : Nat) (sgn : Bool)
    (hne : l ≠ [])
    (hmem : ∀ s ∈ l, s.exponent = e ∧ s.signed = sgn)
    (hval : ∀ s ∈ l, s.value < 2 ^ e) :
    sumShares l = .ok
      { value := ((l.map share.value).sum +
          (l.length - 1) * (if sgn then 2 ^ (e - 1) else 0)) % 2 ^ e,
        exponent := e, signed := sgn } := by
  match l, hne with
  | s :: rest, _ =>
    obtain ⟨hse, hss⟩ := hmem s (List.mem_cons_self s rest)
    have hfold := foldlM_share_add rest s
      (fun x hx => by
        obtain ⟨h1, h2⟩ := hmem x (List.mem_cons_of_mem s hx)
        exact ⟨h1.trans hse.symm, h2.trans hss.symm⟩)
      (by rw [hse]; exact hval s (List.mem_cons_self s rest))
    rw [sumShares, hfold, hse, hss]
    simp only [List.map_cons, List.sum_cons, List.length_cons, Nat.add_sub_cancel]

/-- Successful validation: for a valid exponent and an in-range value,
`_value_from_parameters` returns the offset-adjusted representation, which
is faithful under `Int.toNat` and lies below `2 ^ exponent`. -/
theorem value_from_parameters_ok (value : Int) (e : Nat) (sgn : Bool)
    (he1 : 8 ≤ e) (he2 : e ≤ 128) (he3 : e % 8 = 0)
    (hlo : (if sgn then -(2 ^ (e - 1) : Int) else 0) ≤ value)
    (hhi : value < 2 ^ (if sgn then e - 1 else e)) :
    share._value_from_parameters value e sgn =
      .ok (value + (if sgn then (2 ^ (e - 1) : Int) else 0)).toNat ∧
    ((value + (if sgn then (2 ^ (e - 1) : Int) else 0)).toNat : Int) =
      value + (if sgn then (2 ^ (e - 1) : Int) else 0) ∧
    (value + (if sgn then (2 ^ (e - 1) : Int) else 0)).toNat < 2 ^ e := by
  have h1 : 1 ≤ e := by omega
  have hnn : 0 ≤ value + (if sgn then (2 ^ (e - 1) : Int) else 0) := by
    cases sgn <;> simp only [if_true, if_false, Bool.false_eq_true] <;> simp_all <;> omega
  have hpow : (2 : Int) ^ e = 2 ^ (e - 1) * 2 := by
    rw [← pow_succ]
    congr 1
    omega
  have hlt : value + (if sgn then (2 ^ (e - 1) : Int) else 0) < 2 ^ e := by
    cases sgn <;> simp_all <;> omega
  refine ⟨?_, Int.toNat_of_nonneg hnn, ?_⟩
  · rw [share._value_from_parameters]
    rw [if_neg (not_not_intro ⟨h1, he2, he3⟩)]
    rw [if_neg (not_not_intro ⟨hlo, hhi⟩)]
    cases sgn <;> rfl
  · have h2 := Int.toNat_of_nonneg hnn
    have hc : ((2 ^ e : Nat) : Int) = (2 : Int) ^ e := by push_cast; ring
    omega

/-- A successful `shares` call returns exactly the shares built from
`sharesValues`. -/
theorem shares_eq_values (value : Int) (q e : Nat) (sgn : Bool) (stream : Nat → Nat) (v : Nat)
    (hvp : share._value_from_parameters value e sgn = .ok v) :
    shares value q e sgn stream =
      .ok ((sharesValues v q e sgn stream).map fun w =>
        { value := w, exponent := e, signed := sgn }) := by
  rw [shares, hvp]
  show Except.bind _ _ = _
  rw [Except.bind]
  simp only [sharesValues, share._from_parameters, List.map_append, List.map_cons,
    List.map_nil]

/-- The value list of `shares` has exactly `quantity` elements. -/
theorem sharesValues_length (v q e : Nat) (sgn : Bool) (stream : Nat → Nat) (hq : 1 ≤ q) :
    (sharesValues v q e sgn stream).length = q := by
  simp only [sharesValues, List.length_append, List.length_map, List.length_range,
    List.length_cons, List.length_nil]
  omega

/-- Every internal value produced by the generator is below `2 ^ exponent`. -/
theorem sharesValues_lt (v q e : Nat) (sgn : Bool) (stream : Nat → Nat) :
    ∀ w ∈ sharesValues v q e sgn stream, w < 2 ^ e := by
  intro w hw
  have hm : 0 < 2 ^ e := Nat.pos_pow_of_pos _ (by omega)
  rw [sharesValues, List.mem_append] at hw
  rcases hw with hw | hw
  · rw [List.mem_map] at hw
    obtain ⟨i, _, rfl⟩ := hw
    rw [randomValue]
    exact Nat.mod_lt _ hm
  · rw [List.mem_singleton] at hw
    subst hw
    exact Nat.mod_lt _ hm

/-- Core reconstruction identity: the sum of all internal values produced
by the generator, plus one offset term per addition, reduces modulo
`2 ^ exponent` to the offset-adjusted target value. -/
theorem sharesValues_sum (v q e : Nat) (sgn : Bool) (stream : Nat → Nat)
    (hq : 1 ≤ q) (he1 : 1 ≤ e) (hvlt : v < 2 ^ e) :
    ((sharesValues v q e sgn stream).sum +
        (q - 1) * (if sgn then 2 ^ (e - 1) else 0)) % 2 ^ e = v := by
  have hm : 0 < 2 ^ e := Nat.pos_pow_of_pos _ (by omega)
  have hpow : 2 ^ e = 2 * 2 ^ (e - 1) := by
    rw [← pow_succ']
    congr 1
    omega
  rw [sharesValues]
  generalize (List.range (q - 1)).map
      (randomValue stream e (if sgn then 2 ^ (e - 1) else 0)) = vs
  rw [List.sum_append, List.sum_cons, List.sum_nil,
    foldl_mod_eq_sum_mod vs (2 ^ e) 0 hm]
  generalize vs.sum = S
  generalize hpar : (if q % 2 = 0 then (if sgn then 2 ^ (e - 1) else 0) else 0) = par
  generalize hC : (q - 1) * (if sgn then 2 ^ (e - 1) else 0) = C
  simp only [Nat.zero_add, Nat.add_zero]
  have h1 : S + (v + (2 ^ e - S % 2 ^ e) + par) % 2 ^ e + C =
      (v + (2 ^ e - S % 2 ^ e) + par) % 2 ^ e + (S + C) := by ring
  rw [h1, Nat.mod_add_mod]
  have hdiv := Nat.div_add_mod S (2 ^ e)
  have hmod : S % 2 ^ e < 2 ^ e := Nat.mod_lt _ hm
  have hkey : v + (2 ^ e - S % 2 ^ e) + par + (S + C) =
      v + par + C + 2 ^ e * (S / 2 ^ e + 1) := by
    have h2 : 2 ^ e * (S / 2 ^ e + 1) = 2 ^ e * (S / 2 ^ e) + 2 ^ e := by ring
    rw [h2]
    generalize 2 ^ e * (S / 2 ^ e) = P at hdiv ⊢
    omega
  rw [hkey, Nat.add_mul_mod_self_left]
  cases sgn with
  | false =>
    simp only [if_false, Bool.false_eq_true, Nat.mul_zero] at hpar hC
    have : par = 0 := by rw [← hpar]; split <;> rfl
    subst this
    subst hC
    simpa using Nat.mod_eq_of_lt hvlt
  | true =>
    simp only [if_true] at hpar hC
    by_cases hq2 : q % 2 = 0
    · rw [if_pos hq2] at hpar
      subst hpar
      subst hC
      have hqq : 2 * (q / 2) = q := by omega
      have h5 : 2 ^ (e - 1) + (q - 1) * 2 ^ (e - 1) = q / 2 * 2 ^ e := by
        calc 2 ^ (e - 1) + (q - 1) * 2 ^ (e - 1) = (1 + (q - 1)) * 2 ^ (e - 1) := by ring
          _ = q * 2 ^ (e - 1) := by rw [show 1 + (q - 1) = q from by omega]
          _ = 2 * (q / 2) * 2 ^ (e - 1) := by rw [hqq]
          _ = q / 2 * (2 * 2 ^ (e - 1)) := by ring
          _ = q / 2 * 2 ^ e := by rw [← hpow]
      rw [Nat.add_assoc, h5, Nat.add_mul_mod_self_right]
      exact Nat.mod_eq_of_lt hvlt
    · rw [if_neg hq2] at hpar
      subst hpar
      subst hC
      have hqq : 2 * ((q - 1) / 2) = q - 1 := by omega
      have h5 : (q - 1) * 2 ^ (e - 1) = (q - 1) / 2 * 2 ^ e := by
        calc (q - 1) * 2 ^ (e - 1) = 2 * ((q - 1) / 2) * 2 ^ (e - 1) := by rw [hqq]
          _ = (q - 1) / 2 * (2 * 2 ^ (e - 1)) := by ring
          _ = (q - 1) / 2 * 2 ^ e := by rw [← hpow]
      rw [Nat.add_zero, h5, Nat.add_mul_mod_self_right]
      exact Nat.mod_eq_of_lt hvlt

/-- Summing the complete share set returned by the generator yields the
offset-adjusted target value. -/
theorem sum_of_shares (v q e : Nat) (sgn : Bool) (stream : Nat → Nat)
    (hq : 1 ≤ q) (he1 : 8 ≤ e) (hvlt : v < 2 ^ e) :
    sumShares ((sharesValues v q e sgn stream).map fun w =>
        { value := w, exponent := e, signed := sgn }) =
      .ok { value := v, exponent := e, signed := sgn } := by
  have hlen : (sharesValues v q e sgn stream).length = q :=
    sharesValues_length v q e sgn stream hq
  have hne : (sharesValues v q e sgn stream).map
      (fun w => ({ value := w, exponent := e, signed := sgn } : share)) ≠ [] := by
    intro hcon
    have := congrArg List.length hcon
    rw [List.length_map, hlen] at this
    simp at this
    omega
  rw [sumShares_eq _ e sgn hne
    (by
      intro s hs
      rw [List.mem_map] at hs
      obtain ⟨w, _, rfl⟩ := hs
      exact ⟨rfl, rfl⟩)
    (by
      intro s hs
      rw [List.mem_map] at hs
      obtain ⟨w, hw, rfl⟩ := hs
      exact sharesValues_lt v q e sgn stream w hw)]
  rw [List.map_map, List.length_map, hlen]
  have hid : (share.value ∘ fun w => ({ value := w, exponent := e, signed := sgn } : share)) =
      id := rfl
  rw [hid, List.map_id]
  rw [sharesValues_sum v q e sgn stream hq (by omega) hvlt]

/-- Degenerate generator call with quantity 1: the single returned value is
the offset-adjusted target itself. -/
theorem sharesValues_one (v e : Nat) (sgn : Bool) (stream : Nat → Nat) (hvlt : v < 2 ^ e) :
    sharesValues v 1 e sgn stream = [v] := by
  rw [sharesValues]
  simp only [Nat.sub_self, List.range_zero, List.map_nil, List.foldl_nil, List.nil_append,
    Nat.sub_zero, show (1 : Nat) % 2 = 1 from rfl, if_neg (by omega : ¬(1 : Nat) = 0)]
  rw [Nat.add_zero, Nat.add_mod_right, Nat.mod_eq_of_lt hvlt]

/-! ## Claim theorems -/

/-- C1: for every valid combination of parameters (value in range for the
exponent and signedness, quantity at least 2, exponent a multiple of 8
between 8 and 128) and every random byte stream, summing all shares
returned by `shares` with the share addition operation and applying
`to_int` yields exactly the original value. -/
theorem shares_sum_to_int_roundtrip (value : Int) (quantity exponent : Nat) (signed : Bool)
    (stream : Nat → Nat)
    (hq : 2 ≤ quantity) (he1 : 8 ≤ exponent) (he2 : exponent ≤ 128) (he3 : exponent % 8 = 0)
    (hlo : (if signed then -(2 ^ (exponent - 1) : Int) else 0) ≤ value)
    (hhi : value < 2 ^ (if signed then exponent - 1 else exponent)) :
    ∃ ss total, shares value quantity exponent signed stream = .ok ss ∧
      sumShares ss = .ok total ∧ total.to_int = value := by
  obtain ⟨hvp, hcast, hvlt⟩ :=
    value_from_parameters_ok value exponent signed he1 he2 he3 hlo hhi
  refine ⟨_, _, shares_eq_values value quantity exponent signed stream _ hvp,
    sum_of_shares _ quantity exponent signed stream (by omega) he1 hvlt, ?_⟩
  rw [share.to_int]
  cases signed with
  | false =>
    simp only [Bool.false_eq_true, if_false] at hcast ⊢
    omega
  | true =>
    simp only [if_true] at hcast ⊢
    omega

/-- Witness for C1 at value 5, quantity 2, exponent 8, unsigned, zero stream. -/
theorem shares_sum_to_int_roundtrip_witness :
    ∃ ss total, shares 5 2 8 false (fun _ => 0) = .ok ss ∧
      sumShares ss = .ok total ∧ total.to_int = 5 :=
  shares_sum_to_int_roundtrip 5 2 8 false (fun _ => 0) (by omega) (by omega) (by omega)
    (by omega) (by decide) (by decide)

/-- C2: adding two shares with identical exponent and signed flag yields a
share whose internal value is `(a.value + b.value + offset) mod 2^exponent`
with `offset = 2^(exponent-1)` when signed and `0` otherwise, and with the
operands' exponent and signed flag. -/
theorem share_add_spec (a b : share) (he : a.exponent = b.exponent) (hs : a.signed = b.signed) :
    share.add a b = .ok
      { value := (a.value + b.value + (if a.signed then 2 ^ (a.exponent - 1) else 0))
          % 2 ^ a.exponent,
        exponent := a.exponent, signed := a.signed } := by
  rw [share.add, if_pos ⟨he, hs⟩]
  rfl

/-- Witness for C2 on two concrete compatible shares. -/
theorem share_add_spec_witness :
    share.add { value := 5, exponent := 8, signed := false }
        { value := 7, exponent := 8, signed := false } =
      .ok { value := 12, exponent := 8, signed := false } :=
  Eq.trans
    (share_add_spec { value := 5, exponent := 8, signed := false }
      { value := 7, exponent := 8, signed := false } rfl rfl)
    (by decide)

/-- C8: the addition of two shares fails with the compatibility error
message exactly when the operands differ in exponent or in signedness. -/
theorem share_add_compatibility_iff (a b : share) :
    share.add a b = .error "shares must have compatible parameters to be added" ↔
      a.exponent ≠ b.exponent ∨ a.signed ≠ b.signed := by
  rw [share.add]
  by_cases h : a.exponent = b.exponent ∧ a.signed = b.signed
  · rw [if_pos h]
    constructor
    · intro hcon
      exact Except.noConfusion hcon
    · intro hcon
      rcases hcon with hc | hc
      · exact absurd h.1 hc
      · exact absurd h.2 hc
  · rw [if_neg h]
    constructor
    · intro _
      by_contra hcon
      push_neg at hcon
      exact h ⟨hcon.1, hcon.2⟩
    · intro _
      rfl

/-- C10: `shares` performs no validation of its quantity argument: with
quantity 1 (and otherwise valid parameters) it raises no error and returns
a one-element list whose single share's `to_int` equals the value. -/
theorem shares_quantity_one_trivial (value : Int) (exponent : Nat) (signed : Bool)
    (stream : Nat → Nat)
    (he1 : 8 ≤ exponent) (he2 : exponent ≤ 128) (he3 : exponent % 8 = 0)
    (hlo : (if signed then -(2 ^ (exponent - 1) : Int) else 0) ≤ value)
    (hhi : value < 2 ^ (if signed then exponent - 1 else exponent)) :
    ∃ s, shares value 1 exponent signed stream = .ok [s] ∧ s.to_int = value := by
  obtain ⟨hvp, hcast, hvlt⟩ :=
    value_from_parameters_ok value exponent signed he1 he2 he3 hlo hhi
  refine ⟨{ value := (value + (if signed then (2 ^ (exponent - 1) : Int) else 0)).toNat,
            exponent := exponent, signed := signed }, ?_, ?_⟩
  · rw [shares_eq_values value 1 exponent signed stream _ hvp,
      sharesValues_one _ _ _ _ hvlt]
    rfl
  · rw [share.to_int]
    cases signed with
    | false =>
      simp only [Bool.false_eq_true, if_false] at hcast ⊢
      omega
    | true =>
      simp only [if_true] at hcast ⊢
      omega

/-- Witness for C10 at value 5, exponent 8, unsigned, zero stream. -/
theorem shares_quantity_one_trivial_witness :
    ∃ s, shares 5 1 8 false (fun _ => 0) = .ok [s] ∧ s.to_int = 5 :=
  shares_quantity_one_trivial 5 8 false (fun _ => 0) (by omega) (by omega) (by omega)
    (by decide) (by decide)

/-- Inversion of a successful `_value_from_parameters` call: the exponent
checks passed and the returned representation is bounded and faithful. -/
theorem value_from_parameters_inv (value : Int) (e : Nat) (sgn : Bool) (v : Nat)
    (h : share._value_from_parameters value e sgn = .ok v) :
    v < 2 ^ e ∧ 1 ≤ e ∧ e ≤ 128 ∧ e % 8 = 0 ∧
    (v : Int) = value + (if sgn then (2 ^ (e - 1) : Int) else 0) := by
  simp only [share._value_from_parameters] at h
  by_cases hexp : 1 ≤ e ∧ e ≤ 128 ∧ e % 8 = 0
  case neg =>
    rw [if_pos hexp] at h
    exact absurd h (by simp)
  case pos =>
    obtain ⟨h1, h2, h3⟩ := hexp
    rw [if_neg (not_not_intro ⟨h1, h2, h3⟩)] at h
    have hpow : (2 : Int) ^ e = 2 ^ (e - 1) * 2 := by
      rw [← pow_succ]
      congr 1
      omega
    have hc : ((2 ^ e : Nat) : Int) = (2 : Int) ^ e := by push_cast; ring
    cases sgn with
    | false =>
      simp only [Bool.false_eq_true, if_false] at h ⊢
      by_cases hr : 0 ≤ value ∧ value < 2 ^ e
      · rw [if_neg (not_not_intro hr)] at h
        injection h with h4
        subst h4
        have := Int.toNat_of_nonneg (by omega : (0 : Int) ≤ value + 0)
        exact ⟨by omega, h1, h2, h3, by omega⟩
      · rw [if_pos hr] at h
        exact absurd h (by simp)
    | true =>
      simp only [if_true] at h ⊢
      by_cases hr : -(2 ^ (e - 1) : Int) ≤ value ∧ value < 2 ^ (e - 1)
      · rw [if_neg (not_not_intro hr)] at h
        injection h with h4
        subst h4
        have := Int.toNat_of_nonneg (by omega : (0 : Int) ≤ value + 2 ^ (e - 1))
        exact ⟨by omega, h1, h2, h3, by omega⟩
      · rw [if_pos hr] at h
        exact absurd h (by simp)

/-- Inversion of a successful `shares` call. -/
theorem shares_ok_inv (value : Int) (q e : Nat) (sgn : Bool) (stream : Nat → Nat)
    (ss : List share) (h : shares value q e sgn stream = .ok ss) :
    ∃ v, share._value_from_parameters value e sgn = .ok v ∧
      ss = (sharesValues v q e sgn stream).map fun w =>
        { value := w, exponent := e, signed := sgn } := by
  cases hvp : share._value_from_parameters value e sgn with
  | error err =>
    rw [shares, hvp] at h
    exact absurd h (by simp [Bind.bind, Except.bind])
  | ok v =>
    refine ⟨v, rfl, ?_⟩
    rw [shares_eq_values value q e sgn stream v hvp] at h
    injection h with h2
    exact h2.symm

/-- The little-endian value of a byte list is bounded by `256 ^ length`. -/
theorem fromLittleEndianBytes_lt (l : List Nat) (hb : ∀ b ∈ l, b < 256) :
    fromLittleEndianBytes l < 256 ^ l.length := by
  induction l with
  | nil => simp [fromLittleEndianBytes]
  | cons b rest ih =>
    have hb0 : b < 256 := hb b (List.mem_cons_self b rest)
    have hr := ih fun x hx => hb x (List.mem_cons_of_mem b hx)
    rw [fromLittleEndianBytes, List.length_cons, pow_succ]
    have h2 : (256 : Nat) ^ rest.length * 256 = 256 * 256 ^ rest.length := by ring
    rw [h2]
    generalize fromLittleEndianBytes rest = R at hr ⊢
    generalize (256 : Nat) ^ rest.length = P at hr ⊢
    omega

/-- C5 (counterexample): decoding the byte string `[30, 255, 255, 255]`
succeeds and produces a share with exponent 16 whose internal value
16777215 is not below `2 ^ 16`, so the claimed invariant fails on the
decoding path. -/
theorem share_invariant_counterexample :
    share.from_bytes [30, 255, 255, 255] =
      .ok { value := 16777215, exponent := 16, signed := false } ∧
    ¬(16777215 < 2 ^ (16 : Nat)) := by decide

/-- C5 (amended): the invariant `value < 2 ^ exponent` holds for shares
built by the validating constructor and by the generator, is preserved by
addition and scalar multiplication, and holds for decoded byte strings
exactly when the payload is at most `exponent / 8` bytes (a successful
decode of a longer payload can violate it). -/
theorem share_invariant_amended :
    (∀ (value : Int) (e : Nat) (sgn : Bool) (s : share),
      share.init value e sgn = .ok s → s.value < 2 ^ s.exponent) ∧
    (∀ (value : Int) (q e : Nat) (sgn : Bool) (stream : Nat → Nat) (ss : List share)
      (s : share), shares value q e sgn stream = .ok ss → s ∈ ss →
      s.value < 2 ^ s.exponent) ∧
    (∀ (bs : List Nat) (s : share), share.from_bytes bs = .ok s →
      (∀ b ∈ bs, b < 256) → bs.length ≤ 1 + s.exponent / 8 →
      s.value < 2 ^ s.exponent) ∧
    (∀ (a b s : share), share.add a b = .ok s → s.value < 2 ^ s.exponent) ∧
    (∀ (a : share) (c : Int) (s : share), share.mul a c = .ok s →
      s.value < 2 ^ s.exponent) := by
  refine ⟨?_, ?_, ?_, ?_, ?_⟩
  · intro value e sgn s h
    rw [share.init] at h
    cases hvp : share._value_from_parameters value e sgn with
    | error err =>
      rw [hvp] at h
      exact absurd h (by simp [Except.map])
    | ok v =>
      rw [hvp] at h
      injection h with h2
      obtain ⟨hb, _, _, _, _⟩ := value_from_parameters_inv value e sgn v hvp
      rw [← h2]
      exact hb
  · intro value q e sgn stream ss s h hs
    obtain ⟨v, hvp, rfl⟩ := shares_ok_inv value q e sgn stream ss h
    rw [List.mem_map] at hs
    obtain ⟨w, hw, rfl⟩ := hs
    exact sharesValues_lt v q e sgn stream w hw
  · intro bs s h hb hlen
    cases bs with
    | nil =>
      simp only [share.from_bytes] at h
      exact Except.noConfusion h
    | cons b0 rest =>
      simp only [share.from_bytes] at h
      by_cases hcond : (b0 >>> 1) + 1 = 0 ∨ ((b0 >>> 1) + 1) % 8 ≠ 0
      · rw [if_pos hcond] at h
        exact Except.noConfusion h
      · rw [if_neg hcond] at h
        injection h with h2
        subst h2
        simp only [share._from_parameters] at hlen ⊢
        have hlt := fromLittleEndianBytes_lt rest
          (fun x hx => hb x (List.mem_cons_of_mem b0 hx))
        have hlen2 : rest.length ≤ ((b0 >>> 1) + 1) / 8 := by
          rw [List.length_cons] at hlen
          omega
        calc fromLittleEndianBytes rest
            < 256 ^ rest.length := hlt
          _ ≤ 256 ^ (((b0 >>> 1) + 1) / 8) :=
              Nat.pow_le_pow_right (by omega) hlen2
          _ = 2 ^ (8 * (((b0 >>> 1) + 1) / 8)) := by
              rw [pow_mul]
              norm_num
          _ ≤ 2 ^ ((b0 >>> 1) + 1) :=
              Nat.pow_le_pow_right (by omega) (by omega)
  · intro a b s h
    rw [share.add] at h
    by_cases hcond : a.exponent = b.exponent ∧ a.signed = b.signed
    · rw [if_pos hcond] at h
      injection h with h2
      subst h2
      exact Nat.mod_lt _ (Nat.pos_pow_of_pos _ (by omega))
    · rw [if_neg hcond] at h
      exact absurd h (by simp)
  · intro a c s h
    rw [share.mul] at h
    by_cases hcond : ¬a.signed ∧ c < 0
    · rw [if_pos hcond] at h
      exact absurd h (by simp)
    · rw [if_neg hcond] at h
      injection h with h2
      subst h2
      simp only [share._from_parameters]
      have hpos : (0 : Int) < 2 ^ a.exponent := by positivity
      have h1 := Int.emod_nonneg ((a.value : Int) * c +
        (if a.signed then (|c| - 1) * 2 ^ (a.exponent - 1) else 0)) (by omega : (2 : Int) ^ a.exponent ≠ 0)
      have h2 := Int.emod_lt_of_pos ((a.value : Int) * c +
        (if a.signed then (|c| - 1) * 2 ^ (a.exponent - 1) else 0)) hpos
      have hc : ((2 ^ a.exponent : Nat) : Int) = (2 : Int) ^ a.exponent := by
        push_cast; ring
      omega

/-- Witness for the amended C5 on the validating constructor at a concrete
input. -/
theorem share_invariant_amended_witness :
    ({ value := 3, exponent := 8, signed := false } : share).value <
      2 ^ ({ value := 3, exponent := 8, signed := false } : share).exponent :=
  share_invariant_amended.1 3 8 false
    { value := 3, exponent := 8, signed := false } (by decide)

/-- C7 (counterexample): with exponent 8 the generator consumes `exponent`
bytes per draw (`secrets.token_bytes(exponent)`), not `exponent / 8 = 1`:
on the stream whose byte 1 is 5 and byte 8 is 7, the second random share
has internal value 7 (drawn little-endian from bytes 8..15), while the
spec's exponent/8-byte formula predicts 5 (drawn from byte 1). -/
theorem shares_draw_width_counterexample :
    shares 0 3 8 false (fun i => if i = 1 then 5 else if i = 8 then 7 else 0) =
      .ok [{ value := 0, exponent := 8, signed := false },
           { value := 7, exponent := 8, signed := false },
           { value := 249, exponent := 8, signed := false }] ∧
    specRandomValue (fun i => if i = 1 then 5 else if i = 8 then 7 else 0) 8 0 1 = 5 ∧
    (7 : Nat) ≠ 5 := by decide

/-- Each of the first `quantity - 1` shares returned by a successful
`shares` call carries the value drawn from stream bytes
`i * exponent` through `i * exponent + exponent - 1`. -/
theorem shares_get_randomValue (value : Int) (q e : Nat) (sgn : Bool)
    (stream : Nat → Nat) (ss : List share) (i : Nat)
    (h : shares value q e sgn stream = .ok ss) (hi : i < q - 1) :
    ∃ hlen : i < ss.length,
      ss.get ⟨i, hlen⟩ =
        { value := (fromLittleEndianBytes (drawBytes stream (i * e) e) +
            (if sgn then 2 ^ (e - 1) else 0)) % 2 ^ e,
          exponent := e, signed := sgn } := by
  obtain ⟨v, hvp, rfl⟩ := shares_ok_inv value q e sgn stream ss h
  have hlen : i < ((sharesValues v q e sgn stream).map fun w =>
      ({ value := w, exponent := e, signed := sgn } : share)).length := by
    rw [List.length_map, sharesValues_length v q e sgn stream (by omega)]
    omega
  refine ⟨hlen, ?_⟩
  have hil : i < ((List.range (q - 1)).map
      (randomValue stream e (if sgn then 2 ^ (e - 1) else 0))).length := by
    rw [List.length_map, List.length_range]
    exact hi
  rw [List.get_eq_getElem, List.getElem_map]
  simp only [sharesValues]
  rw [List.getElem_append_left hil, List.getElem_map, List.getElem_range,
    randomValue]

/-- C7 (amended): for every successful `shares` call, each of the first
`quantity - 1` random internal share values is computed from exactly
`exponent` bytes drawn from the random-byte collaborator (bytes
`i * exponent` through `i * exponent + exponent - 1` for draw `i`),
interpreted as an unsigned little-endian integer, with the signed offset
added and the total reduced mod `2 ^ exponent`. -/
theorem shares_draw_width_amended (value : Int) (q e : Nat) (sgn : Bool)
    (stream : Nat → Nat) (ss : List share) (i : Nat)
    (h : shares value q e sgn stream = .ok ss) (hi : i < q - 1) :
    ∃ hlen : i < ss.length,
      ss.get ⟨i, hlen⟩ =
        { value := (fromLittleEndianBytes (drawBytes stream (i * e) e) +
            (if sgn then 2 ^ (e - 1) else 0)) % 2 ^ e,
          exponent := e, signed := sgn } :=
  shares_get_randomValue value q e sgn stream ss i h hi

/-- Witness for the amended C7 at a concrete call (zero stream, draw 0). -/
theorem shares_draw_width_amended_witness :
    ∃ hlen : 0 < ([{ value := 0, exponent := 8, signed := false },
        { value := 0, exponent := 8, signed := false },
        { value := 0, exponent := 8, signed := false }] : List share).length,
      ([{ value := 0, exponent := 8, signed := false },
        { value := 0, exponent := 8, signed := false },
        { value := 0, exponent := 8, signed := false }] : List share).get ⟨0, hlen⟩ =
        { value := (fromLittleEndianBytes (drawBytes (fun _ => 0) (0 * 8) 8) +
            (if false then 2 ^ (8 - 1) else 0)) % 2 ^ 8,
          exponent := 8, signed := false } :=
  shares_draw_width_amended 0 3 8 false (fun _ => 0)
    [{ value := 0, exponent := 8, signed := false },
     { value := 0, exponent := 8, signed := false },
     { value := 0, exponent := 8, signed := false }] 0 (by decide) (by decide)

/-- Mapping scalar multiplication over a list of signed shares with uniform
exponent never fails, and applies the source's correction-term formula to
each internal value. -/
theorem mapM_mul_signed (c : Int) (e : Nat) (l : List share)
    (hmem : ∀ s ∈ l, s.exponent = e ∧ s.signed = true) :
    l.mapM (fun s => share.mul s c) = .ok
      (l.map fun s =>
        { value := (((s.value : Int) * c + (|c| - 1) * 2 ^ (e - 1)) % 2 ^ e).toNat,
          exponent := e, signed := true }) := by
  induction l with
  | nil => rfl
  | cons x xs ih =>
    obtain ⟨hxe, hxs⟩ := hmem x (List.mem_cons_self x xs)
    have hmul : share.mul x c = .ok
        { value := (((x.value : Int) * c + (|c| - 1) * 2 ^ (e - 1)) % 2 ^ e).toNat,
          exponent := e, signed := true } := by
      simp only [share.mul, share._from_parameters, hxe, hxs]
      rw [if_neg (by simp)]
      simp
    rw [List.mapM_cons, hmul]
    show Except.bind _ _ = _
    rw [Except.bind]
    rw [ih (fun s hs => hmem s (List.mem_cons_of_mem x hs))]
    rfl

/-- Casting the sum of post-multiplication internal values back to the
integers: modulo `m`, it is the scalar times the original sum plus one
correction term per list element. -/
theorem mul_values_sum_emod (l : List Nat) (c k m : Int) (hm : 0 < m) :
    (((l.map fun (w : Nat) => (((w : Int) * c + k) % m).toNat).sum : Nat) : Int) % m =
      (((l.sum : Nat) : Int) * c + (l.length : Int) * k) % m := by
  induction l with
  | nil => simp
  | cons w rest ih =>
    rw [List.map_cons, List.sum_cons, Nat.cast_add,
      Int.toNat_of_nonneg (Int.emod_nonneg _ (by omega : m ≠ 0))]
    rw [Int.add_emod]
    rw [Int.emod_emod_of_dvd _ (dvd_refl m)]
    rw [ih]
    rw [← Int.add_emod]
    rw [List.sum_cons, List.length_cons]
    congr 1
    push_cast
    ring

/-- Multiplying every share of a signed share set by the same scalar and
summing the results yields the scalar multiple of the original value,
wrapped into the signed range. -/
theorem mul_shares_reconstruct (value : Int) (q e : Nat) (c : Int) (stream : Nat → Nat)
    (hq : 1 ≤ q) (he1 : 8 ≤ e) (he2 : e ≤ 128) (he3 : e % 8 = 0)
    (hlo : -(2 ^ (e - 1) : Int) ≤ value) (hhi : value < 2 ^ (e - 1)) :
    ∃ ss ss2 r, shares value q e true stream = .ok ss ∧
      ss.mapM (fun s => share.mul s c) = .ok ss2 ∧
      sumShares ss2 = .ok r ∧
      r.to_int = (c * value + 2 ^ (e - 1)) % 2 ^ e - 2 ^ (e - 1) := by
  obtain ⟨hvp, hcast, hvlt⟩ := value_from_parameters_ok value e true he1 he2 he3
    (by simpa using hlo) (by simpa using hhi)
  obtain ⟨v, hvdef⟩ : ∃ v : Nat,
      (value + (if true then (2 ^ (e - 1) : Int) else 0)).toNat = v := ⟨_, rfl⟩
  rw [hvdef] at hvp hcast hvlt
  have hvC : (v : Int) = value + 2 ^ (e - 1) := by simpa using hcast
  have hmn : 0 < 2 ^ e := Nat.pos_pow_of_pos e (by omega)
  have hmi : (0 : Int) < 2 ^ e := by positivity
  have hcc : ((2 ^ e : Nat) : Int) = (2 : Int) ^ e := by push_cast; ring
  have hcc1 : ((2 ^ (e - 1) : Nat) : Int) = (2 : Int) ^ (e - 1) := by push_cast; ring
  have hpow2 : (2 : Int) ^ e = 2 * 2 ^ (e - 1) := by
    rw [← pow_succ']
    congr 1
    omega
  have hmem : ∀ s ∈ ((sharesValues v q e true stream).map fun w =>
      ({ value := w, exponent := e, signed := true } : share)),
      s.exponent = e ∧ s.signed = true := by
    intro s hs
    rw [List.mem_map] at hs
    obtain ⟨w, _, rfl⟩ := hs
    exact ⟨rfl, rfl⟩
  have hmap := mapM_mul_signed c e _ hmem
  have hcomp : ((sharesValues v q e true stream).map fun w =>
      ({ value := w, exponent := e, signed := true } : share)).map
        (fun s => ({ value := (((s.value : Int) * c + (|c| - 1) * 2 ^ (e - 1)) % 2 ^ e).toNat,
                     exponent := e, signed := true } : share)) =
      (sharesValues v q e true stream).map fun (w : Nat) =>
        ({ value := (((w : Int) * c + (|c| - 1) * 2 ^ (e - 1)) % 2 ^ e).toNat,
           exponent := e, signed := true } : share) := by
    rw [List.map_map]
    rfl
  rw [hcomp] at hmap
  have hlen2 : ((sharesValues v q e true stream).map fun (w : Nat) =>
      ({ value := (((w : Int) * c + (|c| - 1) * 2 ^ (e - 1)) % 2 ^ e).toNat,
         exponent := e, signed := true } : share)).length = q := by
    rw [List.length_map, sharesValues_length v q e true stream hq]
  have hsum := sumShares_eq ((sharesValues v q e true stream).map fun (w : Nat) =>
      ({ value := (((w : Int) * c + (|c| - 1) * 2 ^ (e - 1)) % 2 ^ e).toNat,
         exponent := e, signed := true } : share)) e true
    (by
      intro hcon
      rw [hcon] at hlen2
      simp only [List.length_nil] at hlen2
      omega)
    (by
      intro s hs
      rw [List.mem_map] at hs
      obtain ⟨w, _, rfl⟩ := hs
      exact ⟨rfl, rfl⟩)
    (by
      intro s hs
      rw [List.mem_map] at hs
      obtain ⟨w, _, rfl⟩ := hs
      have h1 := Int.emod_nonneg ((w : Int) * c + (|c| - 1) * 2 ^ (e - 1))
        (by omega : (2 : Int) ^ e ≠ 0)
      have h2 := Int.emod_lt_of_pos ((w : Int) * c + (|c| - 1) * 2 ^ (e - 1)) hmi
      show (((w : Int) * c + (|c| - 1) * 2 ^ (e - 1)) % 2 ^ e).toNat < 2 ^ e
      omega)
  have hvals : (((sharesValues v q e true stream).map fun (w : Nat) =>
      ({ value := (((w : Int) * c + (|c| - 1) * 2 ^ (e - 1)) % 2 ^ e).toNat,
         exponent := e, signed := true } : share)).map share.value) =
      (sharesValues v q e true stream).map fun (w : Nat) =>
        (((w : Int) * c + (|c| - 1) * 2 ^ (e - 1)) % 2 ^ e).toNat := by
    rw [List.map_map]
    rfl
  rw [hvals, hlen2] at hsum
  refine ⟨_, _, _, shares_eq_values value q e true stream v hvp, hmap, hsum, ?_⟩
  -- reconstruction value of the summed product share
  have hWDnat : ((sharesValues v q e true stream).sum + (q - 1) * 2 ^ (e - 1)) % 2 ^ e
      = v := by
    have hs := sharesValues_sum v q e true stream hq (by omega) hvlt
    simpa using hs
  have hWD : (((sharesValues v q e true stream).sum : Nat) : Int) +
      ((q : Int) - 1) * 2 ^ (e - 1) ≡ (v : Int) [ZMOD (2 : Int) ^ e] := by
    have hc2 := congrArg (fun n : Nat => (n : Int)) hWDnat
    simp only [Int.natCast_mod, Nat.cast_add, Nat.cast_mul, Nat.cast_pow,
      Nat.cast_ofNat, Nat.cast_sub hq, Nat.cast_one] at hc2
    have hvi : (v : Int) < 2 ^ e := by omega
    show _ % _ = _ % _
    rw [hc2, Int.emod_eq_of_lt (by positivity) hvi]
  have hmod2 := hWD.mul_left c
  have hmod3 : ((((sharesValues v q e true stream).sum : Nat) : Int) * c +
        (q : Int) * ((|c| - 1) * 2 ^ (e - 1)) + ((q : Int) - 1) * 2 ^ (e - 1)) ≡
      (c * value + 2 ^ (e - 1)) [ZMOD (2 : Int) ^ e] := by
    have heq : (((sharesValues v q e true stream).sum : Nat) : Int) * c +
        (q : Int) * ((|c| - 1) * 2 ^ (e - 1)) + ((q : Int) - 1) * 2 ^ (e - 1) =
        c * ((((sharesValues v q e true stream).sum : Nat) : Int) +
          ((q : Int) - 1) * 2 ^ (e - 1)) +
          ((q : Int) * ((|c| - 1) * 2 ^ (e - 1)) +
            (1 - c) * (((q : Int) - 1) * 2 ^ (e - 1))) := by ring
    rw [heq]
    refine (hmod2.add_right _).trans ?_
    rw [hvC]
    rcases abs_cases c with ⟨hab, hc0⟩ | ⟨hab, hc0⟩
    · refine Int.modEq_iff_dvd.mpr ⟨1 - c, ?_⟩
      rw [hab, hpow2]
      ring
    · refine Int.modEq_iff_dvd.mpr ⟨1 - c + (q : Int) * c, ?_⟩
      rw [hab, hpow2]
      ring
  rw [share.to_int]
  simp only [if_true]
  have hRC : (((((sharesValues v q e true stream).map fun (w : Nat) =>
        (((w : Int) * c + (|c| - 1) * 2 ^ (e - 1)) % 2 ^ e).toNat).sum +
        (q - 1) * (2 ^ (e - 1))) % 2 ^ e : Nat) : Int) =
      (c * value + 2 ^ (e - 1)) % 2 ^ e := by
    rw [Int.natCast_mod, Nat.cast_add, Nat.cast_mul, Nat.cast_sub hq]
    simp only [Nat.cast_pow, Nat.cast_ofNat, Nat.cast_one]
    rw [Int.add_emod]
    rw [mul_values_sum_emod (sharesValues v q e true stream) c
      ((|c| - 1) * 2 ^ (e - 1)) ((2 : Int) ^ e) hmi]
    rw [sharesValues_length v q e true stream hq]
    rw [← Int.add_emod]
    exact hmod3
  simp only [if_true] at hsum ⊢
  rw [hRC]

/-- C3: for every signed share, multiplying by a scalar `c` adds the
correction term `(|c| - 1) * 2^(exponent-1)` to the scaled internal value
modulo `2^exponent`; consequently, multiplying every share of a valid
signed share set by the same scalar `c` and summing yields a share whose
`to_int` equals `c * value` wrapped into the signed range
`[-2^(exponent-1), 2^(exponent-1))`. -/
theorem share_mul_correction_and_reconstruction (value : Int) (q e : Nat) (c : Int)
    (stream : Nat → Nat)
    (hq : 2 ≤ q) (he1 : 8 ≤ e) (he2 : e ≤ 128) (he3 : e % 8 = 0)
    (hlo : -(2 ^ (e - 1) : Int) ≤ value) (hhi : value < 2 ^ (e - 1)) :
    (∀ s : share, s.signed = true →
      share.mul s c = .ok
        { value := (((s.value : Int) * c + (|c| - 1) * 2 ^ (s.exponent - 1))
            % 2 ^ s.exponent).toNat,
          exponent := s.exponent, signed := s.signed }) ∧
    ∃ ss ss2 r, shares value q e true stream = .ok ss ∧
      ss.mapM (fun s => share.mul s c) = .ok ss2 ∧
      sumShares ss2 = .ok r ∧
      r.to_int = (c * value + 2 ^ (e - 1)) % 2 ^ e - 2 ^ (e - 1) := by
  constructor
  · intro s hs
    simp only [share.mul, share._from_parameters, hs]
    rw [if_neg (by simp)]
    simp
  · exact mul_shares_reconstruct value q e c stream (by omega) he1 he2 he3 hlo hhi

/-- Witness for C3: the reconstruction conjunct at value 65, quantity 2,
exponent 8, scalar -2, zero stream. -/
theorem share_mul_correction_and_reconstruction_witness :
    ∃ ss ss2 r, shares 65 2 8 true (fun _ => 0) = .ok ss ∧
      ss.mapM (fun s => share.mul s (-2)) = .ok ss2 ∧
      sumShares ss2 = .ok r ∧
      r.to_int = ((-2) * 65 + 2 ^ (8 - 1)) % 2 ^ 8 - 2 ^ (8 - 1) :=
  (share_mul_correction_and_reconstruction 65 2 8 (-2) (fun _ => 0) (by omega) (by omega)
    (by omega) (by omega) (by decide) (by decide)).2

/-- C6 (counterexample): on the all-zero random stream, multiplying each of
the two shares of `shares(65, 2, exponent=8, signed=True)` by -2 and
summing gives a share whose `to_int` is 126, not -126 (the code's own
doctest agrees: `(-130) % 256 = 126`). -/
theorem scalar_neg_two_counterexample :
    ((do
      let ss ← shares 65 2 8 true (fun _ => 0)
      let ss2 ← ss.mapM (fun s => share.mul s (-2))
      let r ← sumShares ss2
      pure r.to_int) : Except String Int) = .ok 126 ∧ (126 : Int) ≠ -126 := by decide

/-- C6 (amended): for every random stream, multiplying every share of
`shares(65, 2, exponent=8, signed=True)` by the scalar -2 and summing the
results yields a share whose `to_int` equals 126, i.e. `-130` wrapped into
the signed range `[-128, 128)`. -/
theorem scalar_neg_two_amended (stream : Nat → Nat) :
    ∃ ss ss2 r, shares 65 2 8 true stream = .ok ss ∧
      ss.mapM (fun s => share.mul s (-2)) = .ok ss2 ∧
      sumShares ss2 = .ok r ∧ r.to_int = 126 := by
  obtain ⟨ss, ss2, r, h1, h2, h3, h4⟩ :=
    mul_shares_reconstruct 65 2 8 (-2) stream (by omega) (by omega) (by omega) (by omega)
      (by decide) (by decide)
  refine ⟨ss, ss2, r, h1, h2, h3, ?_⟩
  rw [h4]
  decide

/-- Little-endian encoding then decoding truncates to `k` bytes. -/
theorem fromLE_natToLE : ∀ (k n : Nat),
    fromLittleEndianBytes (natToLittleEndianBytes n k) = n % 256 ^ k := by
  intro k
  induction k with
  | zero =>
    intro n
    simp [natToLittleEndianBytes, fromLittleEndianBytes, Nat.mod_one]
  | succ k ih =>
    intro n
    rw [natToLittleEndianBytes, fromLittleEndianBytes, ih (n / 256)]
    rw [pow_succ, mul_comm (256 ^ k) 256, Nat.mod_mul]

/-- All bytes of a little-endian encoding are below 256. -/
theorem natToLE_bytes_lt : ∀ (k n : Nat), ∀ b ∈ natToLittleEndianBytes n k, b < 256 := by
  intro k
  induction k with
  | zero =>
    intro n b hb
    simp [natToLittleEndianBytes] at hb
  | succ k ih =>
    intro n b hb
    rw [natToLittleEndianBytes] at hb
    rcases List.mem_cons.mp hb with rfl | hb
    · exact Nat.mod_lt _ (by omega)
    · exact ih (n / 256) b hb

/-- Decoding inverts encoding on every Base64 alphabet position. -/
theorem b64DecodeChar_encode (s : Nat) (hs : s < 64) :
    b64DecodeChar (b64EncodeChar s) = .ok s := by
  have h : ∀ t : Fin 64, b64DecodeChar (b64EncodeChar t.1) = .ok t.1 := by decide
  exact h ⟨s, hs⟩

/-- No Base64 alphabet character is the padding character. -/
theorem b64EncodeChar_ne_pad (s : Nat) (hs : s < 64) : b64EncodeChar s ≠ '=' := by
  have h : ∀ t : Fin 64, b64EncodeChar t.1 ≠ '=' := by decide
  exact h ⟨s, hs⟩

/-- Reduction of the Except monad bind on a success value. -/
theorem except_bind_ok {α β : Type} (a : α) (f : α → Except String β) :
    (Except.ok a >>= f) = f a := rfl

/-- Standard Base64 decoding inverts Base64 encoding on byte lists. -/
theorem b64_roundtrip : ∀ bs : List Nat, (∀ b ∈ bs, b < 256) →
    b64DecodeBytes (b64EncodeBytes bs) = .ok bs := by
  intro bs
  induction bs using b64EncodeBytes.induct with
  | case1 a b c rest ih =>
    intro hb
    have ha : a < 256 := hb a (List.mem_cons_self _ _)
    have hbb : b < 256 := hb b (List.mem_cons_of_mem _ (List.mem_cons_self _ _))
    have hc : c < 256 := hb c
      (List.mem_cons_of_mem _ (List.mem_cons_of_mem _ (List.mem_cons_self _ _)))
    have h0 : a / 4 < 64 := by omega
    have h1 : a % 4 * 16 + b / 16 < 64 := by omega
    have h2 : b % 16 * 4 + c / 64 < 64 := by omega
    have h3 : c % 64 < 64 := by omega
    rw [b64EncodeBytes, b64DecodeBytes]
    rw [if_neg (fun hcon => b64EncodeChar_ne_pad _ h2 hcon.1)]
    rw [if_neg (fun hcon => b64EncodeChar_ne_pad _ h3 hcon.1)]
    rw [b64DecodeChar_encode _ h0, except_bind_ok]
    rw [b64DecodeChar_encode _ h1, except_bind_ok]
    rw [b64DecodeChar_encode _ h2, except_bind_ok]
    rw [b64DecodeChar_encode _ h3, except_bind_ok]
    rw [ih (fun x hx => hb x (List.mem_cons_of_mem _ (List.mem_cons_of_mem _
      (List.mem_cons_of_mem _ hx)))), except_bind_ok]
    have e1 : a / 4 * 4 + (a % 4 * 16 + b / 16) / 16 = a := by omega
    have e2 : (a % 4 * 16 + b / 16) % 16 * 16 + (b % 16 * 4 + c / 64) / 4 = b := by omega
    have e3 : (b % 16 * 4 + c / 64) % 4 * 64 + c % 64 = c := by omega
    rw [e1, e2, e3]
    rfl
  | case2 a b =>
    intro hb
    have ha : a < 256 := hb a (List.mem_cons_self _ _)
    have hbb : b < 256 := hb b (List.mem_cons_of_mem _ (List.mem_cons_self _ _))
    have h0 : a / 4 < 64 := by omega
    have h1 : a % 4 * 16 + b / 16 < 64 := by omega
    have h2 : b % 16 * 4 < 64 := by omega
    rw [b64EncodeBytes, b64DecodeBytes]
    rw [if_neg (fun hcon => b64EncodeChar_ne_pad _ h2 hcon.1)]
    rw [if_pos ⟨rfl, rfl⟩]
    rw [b64DecodeChar_encode _ h0, except_bind_ok]
    rw [b64DecodeChar_encode _ h1, except_bind_ok]
    rw [b64DecodeChar_encode _ h2, except_bind_ok]
    have e1 : a / 4 * 4 + (a % 4 * 16 + b / 16) / 16 = a := by omega
    have e2 : (a % 4 * 16 + b / 16) % 16 * 16 + b % 16 * 4 / 4 = b := by omega
    rw [e1, e2]
  | case3 a =>
    intro hb
    have ha : a < 256 := hb a (List.mem_cons_self _ _)
    have h0 : a / 4 < 64 := by omega
    have h1 : a % 4 * 16 < 64 := by omega
    rw [b64EncodeBytes, b64DecodeBytes]
    rw [if_pos ⟨rfl, rfl, rfl⟩]
    rw [b64DecodeChar_encode _ h0, except_bind_ok]
    rw [b64DecodeChar_encode _ h1, except_bind_ok]
    have e1 : a / 4 * 4 + a % 4 * 16 / 16 = a := by omega
    rw [e1]
  | case4 =>
    intro _
    rfl

/-- Binary decoding inverts binary encoding on any share with a valid
exponent and in-range internal value. -/
theorem from_bytes_to_bytes (s : share)
    (he1 : 1 ≤ s.exponent) (he2 : s.exponent ≤ 128) (he3 : s.exponent % 8 = 0)
    (hv : s.value < 2 ^ s.exponent) :
    share.from_bytes s.to_bytes = .ok s := by
  obtain ⟨w, e, sgn⟩ := s
  simp only at he1 he2 he3 hv
  have hsh : (e - 1) <<< 1 = (e - 1) * 2 := by
    rw [Nat.shiftLeft_eq]
  have hshr : (((e - 1) * 2 + (if sgn then 1 else 0)) >>> 1) = e - 1 := by
    rw [Nat.shiftRight_eq_div_pow]
    cases sgn <;> simp <;> omega
  have hval : fromLittleEndianBytes (natToLittleEndianBytes w (e / 8)) = w := by
    rw [fromLE_natToLE]
    have h8 : 8 * (e / 8) = e := by omega
    have h256 : (256 : Nat) ^ (e / 8) = 2 ^ e := by
      rw [show (256 : Nat) = 2 ^ 8 from rfl, ← pow_mul, h8]
    rw [h256, Nat.mod_eq_of_lt hv]
  have hsgn : ((((e - 1) * 2 + (if sgn then 1 else 0)) % 2 == 1)) = sgn := by
    cases sgn <;> simp <;> omega
  simp only [share.to_bytes, share.from_bytes]
  rw [hsh, hshr]
  rw [if_neg (by omega : ¬(e - 1 + 1 = 0 ∨ (e - 1 + 1) % 8 ≠ 0))]
  rw [hval, hsgn]
  have he' : e - 1 + 1 = e := by omega
  rw [he']
  rfl

/-- C4: for every share built by the validating constructor, decoding its
binary encoding returns an equal share, and likewise for the Base64
encoding. -/
theorem share_encoding_roundtrip (v : Int) (e : Nat) (sgn : Bool) (s : share)
    (h : share.init v e sgn = .ok s) :
    share.from_bytes s.to_bytes = .ok s ∧ share.from_base64 s.to_base64 = .ok s := by
  rw [share.init] at h
  cases hvp : share._value_from_parameters v e sgn with
  | error err =>
    rw [hvp] at h
    exact absurd h (by simp [Except.map])
  | ok w =>
    rw [hvp] at h
    injection h with h2
    obtain ⟨hwlt, he1, he2, he3, _⟩ := value_from_parameters_inv v e sgn w hvp
    subst h2
    have hfb : share.from_bytes
        (share.to_bytes { value := w, exponent := e, signed := sgn }) =
        .ok { value := w, exponent := e, signed := sgn } :=
      from_bytes_to_bytes { value := w, exponent := e, signed := sgn } he1 he2 he3 hwlt
    refine ⟨hfb, ?_⟩
    rw [share.from_base64, share.to_base64]
    have hbytes : ∀ b ∈ share.to_bytes { value := w, exponent := e, signed := sgn },
        b < 256 := by
      intro b hb
      rw [share.to_bytes] at hb
      rcases List.mem_cons.mp hb with rfl | hb
      · have hsh : (e - 1) <<< 1 = (e - 1) * 2 := by
          rw [Nat.shiftLeft_eq]
        simp only [hsh]
        cases sgn <;> simp <;> omega
      · exact natToLE_bytes_lt (e / 8) w b hb
    rw [b64_roundtrip _ hbytes, except_bind_ok]
    exact hfb

/-- Witness for C4 at the doctest share `share(1, 16, False)`. -/
theorem share_encoding_roundtrip_witness :
    share.from_bytes (share.to_bytes { value := 1, exponent := 16, signed := false }) =
      .ok { value := 1, exponent := 16, signed := false } ∧
    share.from_base64 (share.to_base64 { value := 1, exponent := 16, signed := false }) =
      .ok { value := 1, exponent := 16, signed := false } :=
  share_encoding_roundtrip 1 16 false
    { value := 1, exponent := 16, signed := false } (by decide)

/-- The little-endian value of one `token_bytes` draw as a positional sum. -/
theorem fromLE_drawBytes (stream : Nat → Nat) : ∀ (n start : Nat),
    fromLittleEndianBytes (drawBytes stream start n) =
      ∑ j : Fin n, stream (start + (j : Nat)) * 256 ^ (j : Nat) := by
  intro n
  induction n with
  | zero =>
    intro start
    simp [drawBytes, fromLittleEndianBytes]
  | succ n ih =>
    intro start
    rw [drawBytes, List.range_succ_eq_map, List.map_cons, List.map_map,
      fromLittleEndianBytes]
    have hfn : ((fun i => stream (start + i)) ∘ Nat.succ) =
        fun i => stream (start + 1 + i) := by
      funext i
      simp only [Function.comp]
      congr 1
      omega
    rw [hfn]
    have hdb : (List.range n).map (fun i => stream (start + 1 + i)) =
        drawBytes stream (start + 1) n := rfl
    rw [hdb, ih (start + 1)]
    rw [Fin.sum_univ_succ]
    simp only [Fin.val_zero, pow_zero, Nat.mul_one, Nat.add_zero, Fin.val_succ]
    rw [Finset.mul_sum]
    congr 1
    apply Finset.sum_congr rfl
    intro j _
    have : start + ((j : Nat) + 1) = start + 1 + (j : Nat) := by omega
    rw [this]
    ring

/-- The canonical residue hit by the window map `x ↦ (x + off) % m`. -/
theorem r0_spec (m off t : Nat) (hm : 0 < m) (ht : t < m) :
    ((t + (m - off % m)) % m + off) % m = t := by
  rw [Nat.mod_add_mod]
  have hd := Nat.div_add_mod off m
  have hdm : off % m < m := Nat.mod_lt _ hm
  have h1 : t + (m - off % m) + off = t + m * (off / m + 1) := by
    have h2 : m * (off / m + 1) = m * (off / m) + m := by ring
    rw [h2]
    generalize m * (off / m) = P at hd ⊢
    omega
  rw [h1, Nat.add_mul_mod_self_left, Nat.mod_eq_of_lt ht]

/-- Uniqueness of the residue below `m` mapped to `t` by `x ↦ (x + off) % m`. -/
theorem mod_unique_r (m off t r : Nat) (hm : 0 < m) (hr : r < m)
    (hsat : (r + off) % m = t) : r = (t + (m - off % m)) % m := by
  have hr0 : (t + (m - off % m)) % m < m := Nat.mod_lt _ hm
  have ht : t < m := hsat ▸ Nat.mod_lt _ hm
  have hsat0 := r0_spec m off t hm ht
  have hcancel : r ≡ (t + (m - off % m)) % m [MOD m] :=
    Nat.ModEq.add_right_cancel' off (by rw [Nat.ModEq, hsat, hsat0])
  have := hcancel
  rw [Nat.ModEq, Nat.mod_eq_of_lt hr, Nat.mod_eq_of_lt hr0] at this
  exact this

/-- Over any whole number of periods, each residue class of the window map
is hit exactly once per period. -/
theorem count_mod_range (m off t k : Nat) (hm : 0 < m) (ht : t < m) :
    ((Finset.range (m * k)).filter fun x => (x + off) % m = t).card = k := by
  have himg : ((Finset.range (m * k)).filter fun x => (x + off) % m = t) =
      (Finset.range k).image fun j => m * j + (t + (m - off % m)) % m := by
    ext x
    simp only [Finset.mem_filter, Finset.mem_range, Finset.mem_image]
    constructor
    · rintro ⟨hx, hsat⟩
      refine ⟨x / m, ?_, ?_⟩
      · rw [Nat.div_lt_iff_lt_mul hm]
        calc x < m * k := hx
          _ = k * m := by ring
      · have hxr : x % m = (t + (m - off % m)) % m := by
          apply mod_unique_r m off t (x % m) hm (Nat.mod_lt _ hm)
          rw [Nat.mod_add_mod, hsat]
        rw [← hxr]
        exact Nat.div_add_mod x m
    · rintro ⟨j, hj, rfl⟩
      have hr0 : (t + (m - off % m)) % m < m := Nat.mod_lt _ hm
      constructor
      · calc m * j + (t + (m - off % m)) % m < m * j + m := by omega
          _ = m * (j + 1) := by ring
          _ ≤ m * k := Nat.mul_le_mul_left m hj
      · have hre : m * j + (t + (m - off % m)) % m + off =
            (t + (m - off % m)) % m + off + m * j := by ring
        rw [hre, Nat.add_mul_mod_self_left]
        exact r0_spec m off t hm ht
  rw [himg, Finset.card_image_of_injective _ ?inj, Finset.card_range]
  case inj =>
    intro a b hab
    simp only at hab
    have h2 : m * a = m * b := by omega
    exact Nat.eq_of_mul_eq_mul_left hm h2

/-- Counting over `Fin N` equals counting over `range N`. -/
theorem card_filter_fin_eq_range (N : Nat) (p : Nat → Prop) [DecidablePred p] :
    (Finset.univ.filter fun x : Fin N => p x.1).card =
      ((Finset.range N).filter p).card := by
  apply Finset.card_bij (fun (x : Fin N) _ => x.1)
  · intro a ha
    simp only [Finset.mem_filter, Finset.mem_univ, true_and] at ha
    simp only [Finset.mem_filter, Finset.mem_range]
    exact ⟨a.2, ha⟩
  · intro a _ b _ hab
    exact Fin.val_injective hab
  · intro b hb
    simp only [Finset.mem_filter, Finset.mem_range] at hb
    exact ⟨⟨b, hb.1⟩, by simp [hb.2], rfl⟩

/-- Counting byte vectors by the little-endian positional sum equals
counting their integer encodings. -/
theorem card_filter_pi_eq (n : Nat) (p : Nat → Prop) [DecidablePred p] :
    (Finset.univ.filter fun v : Fin n → Fin 256 =>
        p (∑ i : Fin n, (v i : Nat) * 256 ^ (i : Nat))).card =
      (Finset.univ.filter fun x : Fin (256 ^ n) => p x.1).card := by
  apply Finset.card_bij (fun (v : Fin n → Fin 256) _ => finFunctionFinEquiv v)
  · intro v hv
    simp only [Finset.mem_filter, Finset.mem_univ, true_and] at hv ⊢
    rw [finFunctionFinEquiv_apply]
    exact hv
  · intro a _ b _ hab
    exact finFunctionFinEquiv.injective hab
  · intro x hx
    simp only [Finset.mem_filter, Finset.mem_univ, true_and] at hx
    refine ⟨finFunctionFinEquiv.symm x, ?_, Equiv.apply_symm_apply _ x⟩
    simp only [Finset.mem_filter, Finset.mem_univ, true_and]
    have hxx : ((finFunctionFinEquiv (finFunctionFinEquiv.symm x) : Fin (256 ^ n)) : Nat)
        = (x : Nat) := by
      rw [Equiv.apply_symm_apply]
    rw [← finFunctionFinEquiv_apply, hxx]
    exact hx

/-- C9: each of the first `quantity - 1` shares of a `shares` call has an
internal value that is a function of the random bytes consumed for it
alone, independent of the secret value (first conjunct), and that function
is balanced: every element of `[0, 2^exponent)` has exactly
`2^(8·exponent - exponent)` preimages among the `2^(8·exponent)` possible
byte blocks, so each such share value is uniformly distributed over
`[0, 2^exponent)` when the bytes are uniform (second conjunct). -/
theorem shares_random_share_uniform :
    (∀ (value : Int) (q e : Nat) (sgn : Bool) (stream : Nat → Nat) (ss : List share)
      (i : Nat) (hstream : ∀ k, stream k < 256),
      shares value q e sgn stream = .ok ss → i < q - 1 →
      ∃ hlen : i < ss.length,
        ss.get ⟨i, hlen⟩ =
          { value := randomValueOfBytes e e (if sgn then 2 ^ (e - 1) else 0)
              (fun j => ⟨stream (i * e + (j : Nat)), hstream _⟩),
            exponent := e, signed := sgn }) ∧
    (∀ (n e off t : Nat), t < 2 ^ e → e ≤ 8 * n →
      (Finset.univ.filter fun v : Fin n → Fin 256 =>
        randomValueOfBytes n e off v = t).card = 2 ^ (8 * n - e)) := by
  constructor
  · intro value q e sgn stream ss i hstream h hi
    obtain ⟨hlen, hget⟩ := shares_get_randomValue value q e sgn stream ss i h hi
    refine ⟨hlen, ?_⟩
    rw [hget]
    congr 1
    rw [randomValueOfBytes, fromLE_drawBytes stream e (i * e)]
  · intro n e off t ht hen
    have hm : 0 < 2 ^ e := Nat.pos_pow_of_pos e (by omega)
    have h2n : (256 : Nat) ^ n = 2 ^ (8 * n) := by
      rw [pow_mul]
      norm_num
    have h256 : (256 : Nat) ^ n = 2 ^ e * 2 ^ (8 * n - e) := by
      rw [h2n, ← pow_add]
      have h8 : e + (8 * n - e) = 8 * n := by omega
      rw [h8]
    have hcal : (Finset.univ.filter fun v : Fin n → Fin 256 =>
        randomValueOfBytes n e off v = t).card =
        (Finset.univ.filter fun v : Fin n → Fin 256 =>
          ((∑ i : Fin n, (v i : Nat) * 256 ^ (i : Nat)) + off) % 2 ^ e = t).card := rfl
    rw [hcal]
    rw [card_filter_pi_eq n (fun x => (x + off) % 2 ^ e = t)]
    rw [card_filter_fin_eq_range (256 ^ n) (fun x => (x + off) % 2 ^ e = t)]
    rw [h256]
    exact count_mod_range (2 ^ e) off t (2 ^ (8 * n - e)) hm ht

/-- Witness for C9: the balancedness conjunct at one byte, exponent 8,
offset 0, target 0. -/
theorem shares_random_share_uniform_witness :
    (Finset.univ.filter fun v : Fin 1 → Fin 256 =>
      randomValueOfBytes 1 8 0 v = 0).card = 2 ^ (8 * 1 - 8) :=
  shares_random_share_uniform.2 1 8 0 0 (by decide) (by decide)
